import Mathlib

/-!
Shallow embedding of the magpie othello bitboard core.

A `Bitboard` is a `u64` mask; we embed it as a `Nat` together with the side
condition `b < 2 ^ 64` where a claim quantifies over u64 values.  Loops that
accumulate with `out |= …` are embedded as the bitwise OR of the list of the
loop-body contributions (`orBits`), in the loop's iteration order.
-/

namespace Magpie

/-- Bitwise OR of a list of masks; models a loop accumulating `out |= x`. -/
def orBits (l : List Nat) : Nat := l.foldr (fun x acc => x ||| acc) 0

/-- Entry `cw_table[row][byte]` of `generate_rotation_tables`
(`build/gen_constants/mod.rs`): for each `col` with
`(byte >> col) & 1 != 0`, OR in `1 << ((7 - col) * 8 + row)`. -/
def cwEntry (row byte : Nat) : Nat :=
  orBits ((List.range 8).map (fun col =>
    if (byte >>> col) &&& 1 ≠ 0 then 1 <<< ((7 - col) * 8 + row) else 0))

/-- Entry `ccw_table[row][byte]` of `generate_rotation_tables`: for each
`col` with `(byte >> col) & 1 != 0`, OR in `1 << (col * 8 + (7 - row))`. -/
def ccwEntry (row byte : Nat) : Nat :=
  orBits ((List.range 8).map (fun col =>
    if (byte >>> col) &&& 1 ≠ 0 then 1 <<< (col * 8 + (7 - row)) else 0))

/-- `Bitboard::cw` (`src/othello/bitboard.rs`): for each of the 8 rows, look
up `CW_ROTATION_TABLE[row][(self.0 >> (row * 8)) & 0xFF]` and OR the
contributions together. -/
def cw (b : Nat) : Nat :=
  orBits ((List.range 8).map (fun row => cwEntry row ((b >>> (row * 8)) &&& 0xFF)))

/-- `Bitboard::ccw`: identical structure using the counterclockwise table. -/
def ccw (b : Nat) : Nat :=
  orBits ((List.range 8).map (fun row => ccwEntry row ((b >>> (row * 8)) &&& 0xFF)))

/-- `Bitboard::flip180`, i.e. `u64::reverse_bits`: the primitive reverses the
bit order of the 64-bit value, bit `i` of the input becoming bit `63 - i` of
the result. -/
def flip180 (b : Nat) : Nat :=
  orBits ((List.range 64).map (fun i => if b.testBit i then 1 <<< (63 - i) else 0))

/-- `Bitboard::count_set`, i.e. `u64::count_ones`: the number of set bits
among the 64 bits of the value. -/
def count_set (b : Nat) : Nat :=
  (List.range 64).countP (fun i => b.testBit i)

/-- `Bitboard::count_empty`, i.e. `u64::count_zeros`: the number of clear bits
among the 64 bits of the value. -/
def count_empty (b : Nat) : Nat :=
  (List.range 64).countP (fun i => !(b.testBit i))

/-- Follows the spec's words (reference transform for the refinement claim):
each bit at `(row, col)` moves to absolute bit position `(7 - col) * 8 + row`. -/
def cwRef (b : Nat) : Nat :=
  orBits ((List.range 8).map (fun row => orBits ((List.range 8).map (fun col =>
    if b.testBit (row * 8 + col) then 1 <<< ((7 - col) * 8 + row) else 0))))

/-- Follows the spec's words (reference transform for the refinement claim):
each bit at `(row, col)` moves to absolute bit position `col * 8 + (7 - row)`. -/
def ccwRef (b : Nat) : Nat :=
  orBits ((List.range 8).map (fun row => orBits ((List.range 8).map (fun col =>
    if b.testBit (row * 8 + col) then 1 <<< (col * 8 + (7 - row)) else 0))))

/-- Modelled from the spec: `POSITIONS`, the generated constant consumed by
`Bitboard::bits` and not present in the given sources — the 64 single-bit
masks in canonical order, bit 63 down to bit 0. -/
def POSITIONS : List Nat := (List.range 64).map (fun i => 1 <<< (63 - i))

/-- `Bitboard::bits`: maps each single-bit mask of `POSITIONS` to the
intersection `self & mask`. -/
def bits (b : Nat) : List Nat := POSITIONS.map (fun m => b &&& m)

/-- `u64::leading_zeros` primitive: the number of leading zero bits of the
64-bit value (64 for zero, `63 - log2 b` otherwise). -/
def u64LeadingZeros (b : Nat) : Nat := if b = 0 then 64 else 63 - Nat.log2 b

/-- Iterator state of `HotBitsIntoIterator` (`src/othello/bitboard.rs`). -/
structure HotBitsIntoIterator where
  remaining : Nat
  bitboard : Nat
  deriving DecidableEq

/-- `HotBitsIntoIterator::next`: `None` when the bitboard is empty; otherwise
decrement `remaining`, take `position = 1 << (63 - leading_zeros)`, clear it
from the bitboard with XOR and yield it (the raw value of the `Position`
built by `Position::new_unchecked(position)`). -/
def HotBitsIntoIterator.next (s : HotBitsIntoIterator) :
    Option (Nat × HotBitsIntoIterator) :=
  if s.bitboard = 0 then none
  else
    some (1 <<< (63 - u64LeadingZeros s.bitboard),
      ⟨s.remaining - 1, s.bitboard ^^^ (1 <<< (63 - u64LeadingZeros s.bitboard))⟩)

/-- `Bitboard::hot_bits`: the iterator starts out with
`remaining = self.count_set()` and the board itself. -/
def hot_bits (b : Nat) : HotBitsIntoIterator := ⟨count_set b, b⟩

/-- Drives an iterator, collecting the yielded values. `fuel` bounds the
number of steps; 64 steps suffice for any u64 board (certified by the
length theorem below, so no truncation occurs). -/
def runIter : Nat → HotBitsIntoIterator → List Nat
  | 0, _ => []
  | fuel + 1, s =>
    match s.next with
    | none => []
    | some (p, t) => p :: runIter fuel t

/-- The full sequence of raw values yielded by `hot_bits`. -/
def hotBitsList (b : Nat) : List Nat := runIter 64 (hot_bits b)

/-- The iterator state after `k` calls to `next`, `none` once exhausted. -/
def iterState (b : Nat) : Nat → Option HotBitsIntoIterator
  | 0 => some (hot_bits b)
  | k + 1 => (iterState b k).bind (fun s => s.next.map (fun r => r.2))

/-- Glyph printed by `Display for Bitboard` at `(rank, file)`: with
`pos = rank * 8 + file` and `mask = 1 << (63 - pos)`, the glyph is `1` when
`self.0 & mask != 0` and `.` otherwise. -/
def displayChar (b rank file : Nat) : Char :=
  if b &&& (1 <<< (63 - (rank * 8 + file))) ≠ 0 then '1' else '.'

/-- One printed line of `Display for Bitboard`: for `file` in `0..8`, the
glyph followed by a space (`write!(f, "{} ", ch)`); the terminating
`writeln!` newline is kept out of the line. -/
def displayLine (b rank : Nat) : List Char :=
  ((List.range 8).map (fun file => [displayChar b rank file, ' '])).flatten

/-- `Display for Bitboard`: one line per `rank` in `(0..8).rev()`, i.e. rank
7 printed first and rank 0 printed last. -/
def display (b : Nat) : List (List Char) :=
  ((List.range 8).reverse).map (fun rank => displayLine b rank)

section OrBitsLemmas

theorem orBits_nil : orBits [] = 0 := rfl

theorem orBits_cons (x : Nat) (xs : List Nat) : orBits (x :: xs) = x ||| orBits xs := rfl

theorem testBit_orBits (l : List Nat) (j : Nat) :
    (orBits l).testBit j = l.any (fun x => x.testBit j) := by
  induction l with
  | nil => simp [orBits]
  | cons x xs ih => simp [orBits_cons, Nat.testBit_or, ih]

theorem orBits_lt (l : List Nat) (n : Nat) (h : ∀ x ∈ l, x < 2 ^ n) :
    orBits l < 2 ^ n := by
  induction l with
  | nil => exact Nat.pos_pow_of_pos n (by decide)
  | cons x xs ih =>
    rw [orBits_cons]
    exact Nat.or_lt_two_pow (h x (by simp)) (ih (fun y hy => h y (by simp [hy])))

end OrBitsLemmas

section BitHelpers

theorem and_one_ne_zero_iff (x i : Nat) :
    ((x >>> i) &&& 1 ≠ 0) ↔ x.testBit i = true := by
  rw [Nat.and_one_is_mod, Nat.shiftRight_eq_div_pow, Nat.testBit_to_div_mod]
  simp only [decide_eq_true_eq]
  omega

theorem testBit_ite_shift (c : Prop) [Decidable c] (k j : Nat) :
    ((if c then 1 <<< k else 0) : Nat).testBit j = (decide c && decide (k = j)) := by
  split
  · rw [Nat.one_shiftLeft, Nat.testBit_two_pow]
    simp [*]
  · simp [*]

theorem testBit_byte (b r c : Nat) (hc : c < 8) :
    ((b >>> (r * 8)) &&& 0xFF).testBit c = b.testBit (r * 8 + c) := by
  rw [Nat.testBit_and, Nat.testBit_shiftRight]
  have h255 : (0xFF : Nat).testBit c = true := by
    interval_cases c <;> decide
  simp [h255]

theorem testBit_high (b i n : Nat) (hb : b < 2 ^ n) (hi : n ≤ i) :
    b.testBit i = false :=
  Nat.testBit_lt_two_pow (lt_of_lt_of_le hb (Nat.pow_le_pow_right (by decide) hi))

end BitHelpers

section RotationCharacterization

theorem testBit_cwEntry (row byte j : Nat) :
    (cwEntry row byte).testBit j = true ↔
    ∃ col, col < 8 ∧ byte.testBit col = true ∧ j = (7 - col) * 8 + row := by
  simp only [cwEntry, testBit_orBits, List.any_map, List.any_eq_true, List.mem_range,
    Function.comp, testBit_ite_shift, Bool.and_eq_true, decide_eq_true_eq]
  constructor
  · rintro ⟨col, h1, h2, h3⟩
    exact ⟨col, h1, (and_one_ne_zero_iff byte col).mp h2, h3.symm⟩
  · rintro ⟨col, h1, h2, h3⟩
    exact ⟨col, h1, (and_one_ne_zero_iff byte col).mpr h2, h3.symm⟩

theorem testBit_ccwEntry (row byte j : Nat) :
    (ccwEntry row byte).testBit j = true ↔
    ∃ col, col < 8 ∧ byte.testBit col = true ∧ j = col * 8 + (7 - row) := by
  simp only [ccwEntry, testBit_orBits, List.any_map, List.any_eq_true, List.mem_range,
    Function.comp, testBit_ite_shift, Bool.and_eq_true, decide_eq_true_eq]
  constructor
  · rintro ⟨col, h1, h2, h3⟩
    exact ⟨col, h1, (and_one_ne_zero_iff byte col).mp h2, h3.symm⟩
  · rintro ⟨col, h1, h2, h3⟩
    exact ⟨col, h1, (and_one_ne_zero_iff byte col).mpr h2, h3.symm⟩

theorem testBit_cw_exists (b j : Nat) :
    (cw b).testBit j = true ↔
    ∃ row, row < 8 ∧ ∃ col, col < 8 ∧ b.testBit (row * 8 + col) = true ∧
      j = (7 - col) * 8 + row := by
  simp only [cw, testBit_orBits, List.any_eq_true, List.mem_map, List.mem_range]
  constructor
  · rintro ⟨x, ⟨row, hrow, rfl⟩, hx⟩
    rw [testBit_cwEntry] at hx
    obtain ⟨col, hcol, hbit, rfl⟩ := hx
    rw [testBit_byte b row col hcol] at hbit
    exact ⟨row, hrow, col, hcol, hbit, rfl⟩
  · rintro ⟨row, hrow, col, hcol, hbit, rfl⟩
    refine ⟨cwEntry row ((b >>> (row * 8)) &&& 0xFF), ⟨row, hrow, rfl⟩, ?_⟩
    rw [testBit_cwEntry]
    exact ⟨col, hcol, by rw [testBit_byte b row col hcol]; exact hbit, rfl⟩

theorem testBit_ccw_exists (b j : Nat) :
    (ccw b).testBit j = true ↔
    ∃ row, row < 8 ∧ ∃ col, col < 8 ∧ b.testBit (row * 8 + col) = true ∧
      j = col * 8 + (7 - row) := by
  simp only [ccw, testBit_orBits, List.any_eq_true, List.mem_map, List.mem_range]
  constructor
  · rintro ⟨x, ⟨row, hrow, rfl⟩, hx⟩
    rw [testBit_ccwEntry] at hx
    obtain ⟨col, hcol, hbit, rfl⟩ := hx
    rw [testBit_byte b row col hcol] at hbit
    exact ⟨row, hrow, col, hcol, hbit, rfl⟩
  · rintro ⟨row, hrow, col, hcol, hbit, rfl⟩
    refine ⟨ccwEntry row ((b >>> (row * 8)) &&& 0xFF), ⟨row, hrow, rfl⟩, ?_⟩
    rw [testBit_ccwEntry]
    exact ⟨col, hcol, by rw [testBit_byte b row col hcol]; exact hbit, rfl⟩

/-- Bit `j` of the clockwise rotation is bit `(j % 8) * 8 + (7 - j / 8)` of the
input, for `j < 64`. -/
theorem testBit_cw (b j : Nat) (hj : j < 64) :
    (cw b).testBit j = b.testBit ((j % 8) * 8 + (7 - j / 8)) := by
  rw [Bool.eq_iff_iff, testBit_cw_exists]
  constructor
  · rintro ⟨row, hrow, col, hcol, hbit, rfl⟩
    have h1 : ((7 - col) * 8 + row) % 8 = row := by omega
    have h2 : 7 - ((7 - col) * 8 + row) / 8 = col := by omega
    rw [h1, h2]
    exact hbit
  · intro hbit
    exact ⟨j % 8, by omega, 7 - j / 8, by omega, hbit, by omega⟩

/-- Bit `j` of the counterclockwise rotation is bit `(7 - j % 8) * 8 + j / 8`
of the input, for `j < 64`. -/
theorem testBit_ccw (b j : Nat) (hj : j < 64) :
    (ccw b).testBit j = b.testBit ((7 - j % 8) * 8 + j / 8) := by
  rw [Bool.eq_iff_iff, testBit_ccw_exists]
  constructor
  · rintro ⟨row, hrow, col, hcol, hbit, rfl⟩
    have h1 : 7 - (col * 8 + (7 - row)) % 8 = row := by omega
    have h2 : (col * 8 + (7 - row)) / 8 = col := by omega
    rw [h1, h2]
    exact hbit
  · intro hbit
    exact ⟨7 - j % 8, by omega, j / 8, by omega, hbit, by omega⟩

/-- Bit `j` of the 180-degree reflection is bit `63 - j` of the input, for
`j < 64`. -/
theorem testBit_flip180 (b j : Nat) (hj : j < 64) :
    (flip180 b).testBit j = b.testBit (63 - j) := by
  rw [Bool.eq_iff_iff]
  simp only [flip180, testBit_orBits, List.any_map, List.any_eq_true, List.mem_range,
    Function.comp, testBit_ite_shift, Bool.and_eq_true, decide_eq_true_eq]
  constructor
  · rintro ⟨i, hi, hbit, hj'⟩
    have : i = 63 - j := by omega
    subst this
    exact hbit
  · intro hbit
    exact ⟨63 - j, by omega, hbit, by omega⟩

theorem cwEntry_lt (row byte : Nat) (hrow : row < 8) : cwEntry row byte < 2 ^ 64 := by
  apply orBits_lt
  intro x hx
  rw [List.mem_map] at hx
  obtain ⟨col, hcol, rfl⟩ := hx
  rw [List.mem_range] at hcol
  split
  · rw [Nat.one_shiftLeft]
    exact Nat.pow_lt_pow_right (by decide) (by omega)
  · exact Nat.pos_pow_of_pos 64 (by decide)

theorem ccwEntry_lt (row byte : Nat) (hrow : row < 8) : ccwEntry row byte < 2 ^ 64 := by
  apply orBits_lt
  intro x hx
  rw [List.mem_map] at hx
  obtain ⟨col, hcol, rfl⟩ := hx
  rw [List.mem_range] at hcol
  split
  · rw [Nat.one_shiftLeft]
    exact Nat.pow_lt_pow_right (by decide) (by omega)
  · exact Nat.pos_pow_of_pos 64 (by decide)

theorem cw_lt (b : Nat) : cw b < 2 ^ 64 := by
  apply orBits_lt
  intro x hx
  rw [List.mem_map] at hx
  obtain ⟨row, hrow, rfl⟩ := hx
  rw [List.mem_range] at hrow
  exact cwEntry_lt row _ hrow

theorem ccw_lt (b : Nat) : ccw b < 2 ^ 64 := by
  apply orBits_lt
  intro x hx
  rw [List.mem_map] at hx
  obtain ⟨row, hrow, rfl⟩ := hx
  rw [List.mem_range] at hrow
  exact ccwEntry_lt row _ hrow

theorem flip180_lt (b : Nat) : flip180 b < 2 ^ 64 := by
  apply orBits_lt
  intro x hx
  rw [List.mem_map] at hx
  obtain ⟨i, hi, rfl⟩ := hx
  rw [List.mem_range] at hi
  split
  · rw [Nat.one_shiftLeft]
    exact Nat.pow_lt_pow_right (by decide) (by omega)
  · exact Nat.pos_pow_of_pos 64 (by decide)

end RotationCharacterization

section ReferenceTransforms

theorem testBit_cwRef_exists (b j : Nat) :
    (cwRef b).testBit j = true ↔
    ∃ row, row < 8 ∧ ∃ col, col < 8 ∧ b.testBit (row * 8 + col) = true ∧
      j = (7 - col) * 8 + row := by
  simp only [cwRef, testBit_orBits, List.any_map, List.any_eq_true, List.mem_range,
    Function.comp, testBit_ite_shift, Bool.and_eq_true, decide_eq_true_eq]
  constructor
  · rintro ⟨row, hrow, col, hcol, hbit, hj⟩
    exact ⟨row, hrow, col, hcol, hbit, hj.symm⟩
  · rintro ⟨row, hrow, col, hcol, hbit, hj⟩
    exact ⟨row, hrow, col, hcol, hbit, hj.symm⟩

theorem testBit_ccwRef_exists (b j : Nat) :
    (ccwRef b).testBit j = true ↔
    ∃ row, row < 8 ∧ ∃ col, col < 8 ∧ b.testBit (row * 8 + col) = true ∧
      j = col * 8 + (7 - row) := by
  simp only [ccwRef, testBit_orBits, List.any_map, List.any_eq_true, List.mem_range,
    Function.comp, testBit_ite_shift, Bool.and_eq_true, decide_eq_true_eq]
  constructor
  · rintro ⟨row, hrow, col, hcol, hbit, hj⟩
    exact ⟨row, hrow, col, hcol, hbit, hj.symm⟩
  · rintro ⟨row, hrow, col, hcol, hbit, hj⟩
    exact ⟨row, hrow, col, hcol, hbit, hj.symm⟩

theorem cw_eq_cwRef (b : Nat) : cw b = cwRef b := by
  apply Nat.eq_of_testBit_eq
  intro i
  rw [Bool.eq_iff_iff, testBit_cw_exists, testBit_cwRef_exists]

theorem ccw_eq_ccwRef (b : Nat) : ccw b = ccwRef b := by
  apply Nat.eq_of_testBit_eq
  intro i
  rw [Bool.eq_iff_iff, testBit_ccw_exists, testBit_ccwRef_exists]

end ReferenceTransforms

section CountingHelpers

theorem count_set_comp (b x : Nat) (f : Nat → Nat)
    (hperm : List.Perm ((List.range 64).map f) (List.range 64))
    (h : ∀ i, i < 64 → x.testBit i = b.testBit (f i)) :
    count_set x = count_set b := by
  unfold count_set
  have h1 : (List.range 64).countP (fun i => x.testBit i) =
      (List.range 64).countP (fun i => b.testBit (f i)) := by
    apply List.countP_congr
    intro a ha
    rw [List.mem_range] at ha
    rw [h a ha]
  have h2 : (List.map f (List.range 64)).countP (fun i => b.testBit i) =
      (List.range 64).countP (fun i => b.testBit (f i)) := by
    rw [List.countP_map]
    rfl
  rw [h1, ← h2]
  exact hperm.countP_eq _

end CountingHelpers

/-- C1: the table-driven rotations equal the per-bit reference transforms: for
every u64 mask `b`, row `r < 8` and column `c < 8`, bit `(7-c)*8+r` is set in
`cw b` iff bit `r*8+c` is set in `b`, and bit `c*8+(7-r)` is set in `ccw b`
iff bit `r*8+c` is set in `b`; moreover OR-ing the 8 per-row table lookups
(`cw`, `ccw`) yields exactly the board produced by moving each bit
individually according to the two formulas (`cwRef`, `ccwRef`). -/
theorem C1_tables_match_reference (b : Nat) (hb : b < 2 ^ 64) :
    (∀ r, r < 8 → ∀ c, c < 8 →
      ((cw b).testBit ((7 - c) * 8 + r) = b.testBit (r * 8 + c) ∧
       (ccw b).testBit (c * 8 + (7 - r)) = b.testBit (r * 8 + c))) ∧
    cw b = cwRef b ∧ ccw b = ccwRef b := by
  refine ⟨?_, cw_eq_cwRef b, ccw_eq_ccwRef b⟩
  intro r hr c hc
  constructor
  · rw [testBit_cw b _ (by omega)]
    congr 1
    omega
  · rw [testBit_ccw b _ (by omega)]
    congr 1
    omega

/-- Witness for C1 at `b = 0x8000000000000000`, `r = 7`, `c = 7`. -/
theorem C1_tables_match_reference_witness :
    (cw 0x8000000000000000).testBit 7 = (0x8000000000000000 : Nat).testBit 63 ∧
    cw 0x8000000000000000 = cwRef 0x8000000000000000 :=
  ⟨by
    have h := ((C1_tables_match_reference 0x8000000000000000 (by decide)).1 7
      (by decide) 7 (by decide)).1
    exact h,
   (C1_tables_match_reference 0x8000000000000000 (by decide)).2.1⟩

/-- C2 counterexample: the claim asserts `cw 0x8000000000000000 =
0x0100000000000000` and `ccw 0x8000000000000000 = 0x0000000000000080`, but
the code produces the two values the other way around: bit 63 sits at
row 7, col 7 of the byte layout, so `cw` sends it to `(7-7)*8+7 = 7` and
`ccw` to `7*8+(7-7) = 56`. -/
theorem C2_counterexample :
    ¬ (cw 0x8000000000000000 = 0x0100000000000000 ∧
       ccw 0x8000000000000000 = 0x0000000000000080) := by
  decide

/-- C2 amended: for the input `b = 0x8000000000000000` (only bit 63 set), the
clockwise rotation has exactly bit 7 set (`0x0000000000000080`) and the
counterclockwise rotation has exactly bit 56 set (`0x0100000000000000`). -/
theorem C2_amended_rotate_bit63 :
    cw 0x8000000000000000 = 0x0000000000000080 ∧
    ccw 0x8000000000000000 = 0x0100000000000000 := by
  decide

/-- C3: for every u64 mask `b`, rotating clockwise then counterclockwise
returns `b`, and rotating counterclockwise then clockwise also returns `b`. -/
theorem C3_rotations_inverse (b : Nat) (hb : b < 2 ^ 64) :
    cw (ccw b) = b ∧ ccw (cw b) = b := by
  constructor
  · apply Nat.eq_of_testBit_eq
    intro i
    by_cases hi : i < 64
    · rw [testBit_cw _ i hi, testBit_ccw b _ (by omega)]
      congr 1
      omega
    · rw [testBit_high _ i 64 (cw_lt _) (by omega), testBit_high b i 64 hb (by omega)]
  · apply Nat.eq_of_testBit_eq
    intro i
    by_cases hi : i < 64
    · rw [testBit_ccw _ i hi, testBit_cw b _ (by omega)]
      congr 1
      omega
    · rw [testBit_high _ i 64 (ccw_lt _) (by omega), testBit_high b i 64 hb (by omega)]

/-- Witness for C3 at `b = 0x123456789ABCDEF0`. -/
theorem C3_rotations_inverse_witness :
    cw (ccw 0x123456789ABCDEF0) = 0x123456789ABCDEF0 ∧
    ccw (cw 0x123456789ABCDEF0) = 0x123456789ABCDEF0 :=
  C3_rotations_inverse 0x123456789ABCDEF0 (by decide)

/-- C4: for every u64 mask `b`, applying the clockwise rotation twice,
applying the counterclockwise rotation twice, and applying the 180-degree
reflection (full 64-bit reverse) all yield the same result. -/
theorem C4_double_rotation_is_flip180 (b : Nat) (hb : b < 2 ^ 64) :
    cw (cw b) = ccw (ccw b) ∧ cw (cw b) = flip180 b ∧ ccw (ccw b) = flip180 b := by
  have h2 : cw (cw b) = flip180 b := by
    apply Nat.eq_of_testBit_eq
    intro i
    by_cases hi : i < 64
    · rw [testBit_cw _ i hi, testBit_cw b _ (by omega), testBit_flip180 b i hi]
      congr 1
      omega
    · rw [testBit_high _ i 64 (cw_lt _) (by omega),
        testBit_high _ i 64 (flip180_lt _) (by omega)]
  have h3 : ccw (ccw b) = flip180 b := by
    apply Nat.eq_of_testBit_eq
    intro i
    by_cases hi : i < 64
    · rw [testBit_ccw _ i hi, testBit_ccw b _ (by omega), testBit_flip180 b i hi]
      congr 1
      omega
    · rw [testBit_high _ i 64 (ccw_lt _) (by omega),
        testBit_high _ i 64 (flip180_lt _) (by omega)]
  exact ⟨h2.trans h3.symm, h2, h3⟩

/-- Witness for C4 at `b = 0x123456789ABCDEF0`. -/
theorem C4_double_rotation_is_flip180_witness :
    cw (cw 0x123456789ABCDEF0) = ccw (ccw 0x123456789ABCDEF0) ∧
    cw (cw 0x123456789ABCDEF0) = flip180 0x123456789ABCDEF0 ∧
    ccw (ccw 0x123456789ABCDEF0) = flip180 0x123456789ABCDEF0 :=
  C4_double_rotation_is_flip180 0x123456789ABCDEF0 (by decide)

/-- C5: for every u64 mask `b`, the population count is preserved by the
clockwise rotation, the counterclockwise rotation and the 180-degree
reflection. -/
theorem C5_count_set_preserved (b : Nat) (hb : b < 2 ^ 64) :
    count_set (cw b) = count_set b ∧ count_set (ccw b) = count_set b ∧
    count_set (flip180 b) = count_set b := by
  refine ⟨?_, ?_, ?_⟩
  · exact count_set_comp b (cw b) (fun i => (i % 8) * 8 + (7 - i / 8))
      (by decide) (fun i hi => testBit_cw b i hi)
  · exact count_set_comp b (ccw b) (fun i => (7 - i % 8) * 8 + i / 8)
      (by decide) (fun i hi => testBit_ccw b i hi)
  · exact count_set_comp b (flip180 b) (fun i => 63 - i)
      (by decide) (fun i hi => testBit_flip180 b i hi)

/-- Witness for C5 at `b = 0xF0F0F0F000FF0001`. -/
theorem C5_count_set_preserved_witness :
    count_set (cw 0xF0F0F0F000FF0001) = count_set 0xF0F0F0F000FF0001 ∧
    count_set (ccw 0xF0F0F0F000FF0001) = count_set 0xF0F0F0F000FF0001 ∧
    count_set (flip180 0xF0F0F0F000FF0001) = count_set 0xF0F0F0F000FF0001 :=
  C5_count_set_preserved 0xF0F0F0F000FF0001 (by decide)

section SingleBitHelpers

theorem and_single_bit (b k : Nat) :
    b &&& (1 <<< k) = (if b.testBit k then 1 <<< k else 0) := by
  rw [Nat.one_shiftLeft]
  apply Nat.eq_of_testBit_eq
  intro i
  rw [Nat.testBit_and, Nat.testBit_two_pow]
  by_cases hik : k = i
  · subst hik
    by_cases hb : b.testBit k <;> simp [hb, Nat.testBit_two_pow]
  · by_cases hb : b.testBit k <;>
      simp [hik, hb, Nat.testBit_two_pow, Nat.zero_testBit]

theorem and_single_bit_ne_zero (b k : Nat) :
    (b &&& (1 <<< k) ≠ 0) ↔ b.testBit k = true := by
  rw [and_single_bit]
  by_cases hb : b.testBit k
  · simp only [hb, if_true, Nat.one_shiftLeft]
    constructor
    · intro _; trivial
    · intro _; exact Nat.pos_iff_ne_zero.mp (Nat.two_pow_pos k)
  · simp [hb]

end SingleBitHelpers

section CountPartition

theorem countP_not_add (p : Nat → Bool) (l : List Nat) :
    l.countP p + l.countP (fun a => !(p a)) = l.length := by
  induction l with
  | nil => rfl
  | cons x xs ih =>
    by_cases h : p x <;> simp [List.countP_cons, h] <;> omega

end CountPartition

/-- C7: for every u64 mask `b`, `bits b` yields exactly 64 elements, in
canonical order bit 63 down to bit 0, and the `i`-th element equals the
intersection of `b` with the `i`-th single-bit mask `1 <<< (63 - i)` — the
singleton mask if that bit of `b` was set, or the empty board otherwise. -/
theorem C7_bits_spec (b : Nat) (hb : b < 2 ^ 64) :
    (bits b).length = 64 ∧
    ∀ i, i < 64 →
      (bits b)[i]? = some (b &&& (1 <<< (63 - i))) ∧
      b &&& (1 <<< (63 - i)) = (if b.testBit (63 - i) then 1 <<< (63 - i) else 0) := by
  constructor
  · simp [bits, POSITIONS]
  · intro i hi
    constructor
    · simp [bits, POSITIONS, List.getElem?_map, List.getElem?_range hi]
    · exact and_single_bit b (63 - i)

/-- Witness for C7 at `b = 5`, `i = 63`. -/
theorem C7_bits_spec_witness :
    (bits 5).length = 64 ∧ (bits 5)[63]? = some (5 &&& (1 <<< 0)) :=
  ⟨(C7_bits_spec 5 (by decide)).1, ((C7_bits_spec 5 (by decide)).2 63 (by decide)).1⟩

/-- C8: for every u64 mask `b`, `count_set b + count_empty b = 64`, with both
counts in the range `[0, 64]` (in particular the `u8` conversion inside
`count_empty` cannot fail). -/
theorem C8_count_partition (b : Nat) (hb : b < 2 ^ 64) :
    count_set b + count_empty b = 64 ∧ count_set b ≤ 64 ∧ count_empty b ≤ 64 := by
  have h := countP_not_add (fun i => b.testBit i) (List.range 64)
  rw [List.length_range] at h
  unfold count_set count_empty
  exact ⟨h, by omega, by omega⟩

/-- Witness for C8 at `b = 0xF0F0F0F000FF0001`. -/
theorem C8_count_partition_witness :
    count_set 0xF0F0F0F000FF0001 + count_empty 0xF0F0F0F000FF0001 = 64 ∧
    count_set 0xF0F0F0F000FF0001 ≤ 64 ∧ count_empty 0xF0F0F0F000FF0001 ≤ 64 :=
  C8_count_partition 0xF0F0F0F000FF0001 (by decide)

section DisplayHelpers

theorem displayChar_eq_testBit (b rank file : Nat) :
    displayChar b rank file =
      (if b.testBit (63 - (rank * 8 + file)) then '1' else '.') := by
  unfold displayChar
  by_cases h : b.testBit (63 - (rank * 8 + file)) = true
  · rw [if_pos ((and_single_bit_ne_zero b _).mpr h), if_pos h]
  · rw [if_neg (fun hc => h ((and_single_bit_ne_zero b _).mp hc)), if_neg h]

theorem displayLine_getElem (b rank file : Nat) (hf : file < 8) :
    (displayLine b rank)[2 * file]? = some (displayChar b rank file) := by
  interval_cases file <;> rfl

end DisplayHelpers

/-- C9 counterexample: at `b = 0x0100000000000000` (only bit 56 set), the
first printed line — the rank-7 line — contains no set glyph, even though a
bit with index in 56..63 is set; the set glyph instead appears on the last
line (rank 0, file 7).  This refutes the claim that the top line shows the
squares at bit indices 56 through 63. -/
theorem C9_counterexample :
    (display 0x0100000000000000).length = 8 ∧
    (display 0x0100000000000000)[0]? =
      some ['.', ' ', '.', ' ', '.', ' ', '.', ' ', '.', ' ', '.', ' ', '.', ' ', '.', ' '] ∧
    (0x0100000000000000 : Nat).testBit 56 = true ∧
    displayChar 0x0100000000000000 0 7 = '1' := by
  decide

/-- C9 amended: for every u64 mask `b`, the Display rendering consists of 8
lines of 8 square glyphs (each glyph followed by a separating space), where
the first (top) printed line shows the squares of rank 7 — which are the
squares at bit indices 7 down to 0 of the mask, file `f` showing bit `7 - f`
— and the last (bottom) line shows rank 0, whose squares are at bit indices
63 down to 56; the glyph is `1` for set squares and `.` for clear ones. -/
theorem C9_amended_display (b : Nat) (hb : b < 2 ^ 64) :
    (display b).length = 8 ∧
    (∀ i, i < 8 → (display b)[i]? = some (displayLine b (7 - i))) ∧
    (∀ rank, rank < 8 → (displayLine b rank).length = 16) ∧
    (∀ rank file, rank < 8 → file < 8 →
      (displayLine b rank)[2 * file]? =
        some (if b.testBit (63 - (rank * 8 + file)) then '1' else '.')) := by
  refine ⟨by simp [display], ?_, ?_, ?_⟩
  · intro i hi
    interval_cases i <;> rfl
  · intro rank _
    rfl
  · intro rank file hrank hfile
    rw [displayLine_getElem b rank file hfile, displayChar_eq_testBit]

/-- Witness for C9 amended at `b = 0x0100000000000000`. -/
theorem C9_amended_display_witness :
    (display 0x0100000000000000).length = 8 ∧
    (display 0x0100000000000000)[0]? = some (displayLine 0x0100000000000000 7) ∧
    (displayLine 0x0100000000000000 0)[2 * 7]? = some '1' :=
  ⟨(C9_amended_display 0x0100000000000000 (by decide)).1,
   (C9_amended_display 0x0100000000000000 (by decide)).2.1 0 (by decide),
   ((C9_amended_display 0x0100000000000000 (by decide)).2.2.2 0 7 (by decide)
     (by decide)).trans (by decide)⟩

section TopBitHelpers

theorem testBit_log2 (b : Nat) (hb : b ≠ 0) : b.testBit (Nat.log2 b) = true := by
  have h1 : 2 ^ Nat.log2 b ≤ b := Nat.log2_self_le hb
  have h2 : b < 2 ^ (Nat.log2 b + 1) := Nat.lt_log2_self
  have hpos : 0 < 2 ^ Nat.log2 b := Nat.two_pow_pos _
  have h3 : b / 2 ^ Nat.log2 b = 1 := by
    have hlt : b / 2 ^ Nat.log2 b < 2 := by
      rw [Nat.div_lt_iff_lt_mul hpos]
      calc b < 2 ^ (Nat.log2 b + 1) := h2
        _ = 2 * 2 ^ Nat.log2 b := by rw [Nat.pow_succ, Nat.mul_comm]
    have hge : 1 ≤ b / 2 ^ Nat.log2 b := by
      rw [Nat.le_div_iff_mul_le hpos, Nat.one_mul]
      exact h1
    omega
  rw [Nat.testBit_to_div_mod, h3]
  decide

theorem hotPosition_eq (b : Nat) (hb : b ≠ 0) (hlt : b < 2 ^ 64) :
    1 <<< (63 - u64LeadingZeros b) = 2 ^ Nat.log2 b := by
  rw [Nat.one_shiftLeft, u64LeadingZeros, if_neg hb]
  congr 1
  have : Nat.log2 b < 64 := (Nat.log2_lt hb).mpr hlt
  omega

theorem testBit_clearTop (b i : Nat) (hb : b ≠ 0) :
    (b ^^^ 2 ^ Nat.log2 b).testBit i =
      (if i = Nat.log2 b then false else b.testBit i) := by
  rw [Nat.testBit_xor, Nat.testBit_two_pow]
  by_cases h : i = Nat.log2 b
  · rw [if_pos h]
    subst h
    rw [testBit_log2 b hb, decide_eq_true rfl]
    rfl
  · rw [if_neg h, decide_eq_false (fun hc => h hc.symm)]
    cases b.testBit i <;> rfl

theorem clearTop_lt (b : Nat) (hb : b ≠ 0) : b ^^^ 2 ^ Nat.log2 b < b := by
  apply Nat.lt_of_testBit (Nat.log2 b)
  · rw [testBit_clearTop b _ hb, if_pos rfl]
  · exact testBit_log2 b hb
  · intro j hj
    rw [testBit_clearTop b j hb, if_neg (by omega)]

theorem clearTop_lt_pow (b : Nat) (hb : b ≠ 0) :
    b ^^^ 2 ^ Nat.log2 b < 2 ^ Nat.log2 b := by
  by_cases hz : b ^^^ 2 ^ Nat.log2 b = 0
  · rw [hz]
    exact Nat.two_pow_pos _
  · by_contra hge
    push_neg at hge
    have hlog : Nat.log2 b ≤ Nat.log2 (b ^^^ 2 ^ Nat.log2 b) :=
      (Nat.le_log2 hz).mpr hge
    have htop : (b ^^^ 2 ^ Nat.log2 b).testBit (Nat.log2 (b ^^^ 2 ^ Nat.log2 b)) = true :=
      testBit_log2 _ hz
    rw [testBit_clearTop b _ hb] at htop
    by_cases heq : Nat.log2 (b ^^^ 2 ^ Nat.log2 b) = Nat.log2 b
    · rw [if_pos heq] at htop
      cases htop
    · rw [if_neg heq] at htop
      have hgt : Nat.log2 b < Nat.log2 (b ^^^ 2 ^ Nat.log2 b) := by omega
      have hfalse : b.testBit (Nat.log2 (b ^^^ 2 ^ Nat.log2 b)) = false := by
        apply Nat.testBit_lt_two_pow
        calc b < 2 ^ (Nat.log2 b + 1) := Nat.lt_log2_self
          _ ≤ 2 ^ Nat.log2 (b ^^^ 2 ^ Nat.log2 b) :=
            Nat.pow_le_pow_right (by decide) (by omega)
      rw [htop] at hfalse
      cases hfalse

theorem countP_range_diff_one (p q : Nat → Bool) (L : Nat) :
    ∀ n, L < n → (∀ i, i < n → i ≠ L → p i = q i) → p L = true → q L = false →
    (List.range n).countP p = (List.range n).countP q + 1 := by
  intro n
  induction n with
  | zero => omega
  | succ m ih =>
    intro hL hpq hpL hqL
    rw [List.range_succ, List.countP_append, List.countP_append,
      List.countP_singleton, List.countP_singleton]
    by_cases hLm : L = m
    · have hcongr : (List.range m).countP p = (List.range m).countP q := by
        apply List.countP_congr
        intro x hx
        rw [List.mem_range] at hx
        rw [hpq x (by omega) (by omega)]
      subst hLm
      rw [hcongr, hpL, hqL]
      simp
    · have := ih (by omega) (fun i hi hne => hpq i (by omega) hne) hpL hqL
      have hm : p m = q m := hpq m (by omega) (fun h => hLm h.symm)
      rw [this, hm]
      by_cases hqm : q m = true <;> simp [hqm]

theorem count_set_clearTop (b : Nat) (hb : b ≠ 0) (hlt : b < 2 ^ 64) :
    count_set b = count_set (b ^^^ 2 ^ Nat.log2 b) + 1 := by
  unfold count_set
  apply countP_range_diff_one (fun i => b.testBit i)
    (fun i => (b ^^^ 2 ^ Nat.log2 b).testBit i) (Nat.log2 b) 64
    ((Nat.log2_lt hb).mpr hlt)
  · intro i _ hne
    rw [testBit_clearTop b i hb, if_neg hne]
  · exact testBit_log2 b hb
  · rw [testBit_clearTop b _ hb, if_pos rfl]

theorem count_set_pos (b : Nat) (hb : b ≠ 0) (hlt : b < 2 ^ 64) :
    0 < count_set b := by
  unfold count_set
  rw [List.countP_pos_iff]
  exact ⟨Nat.log2 b, List.mem_range.mpr ((Nat.log2_lt hb).mpr hlt), testBit_log2 b hb⟩

theorem count_set_le_64 (b : Nat) : count_set b ≤ 64 := by
  have h := countP_not_add (fun i => b.testBit i) (List.range 64)
  rw [List.length_range] at h
  unfold count_set
  omega

theorem count_set_two_pow (k : Nat) (hk : k < 64) : count_set (2 ^ k) = 1 := by
  unfold count_set
  have h := countP_range_diff_one (fun i => (2 ^ k).testBit i) (fun _ => false) k 64 hk
    (fun i _ hne => by
      show (2 ^ k).testBit i = false
      rw [Nat.testBit_two_pow]
      exact decide_eq_false (fun hc => hne hc.symm))
    (by
      show (2 ^ k).testBit k = true
      rw [Nat.testBit_two_pow]
      exact decide_eq_true rfl)
    rfl
  rw [h]
  simp

end TopBitHelpers

section RunIterSpec

theorem runIter_step (r b fuel : Nat) (hb : b ≠ 0) (hlt : b < 2 ^ 64) :
    runIter (fuel + 1) ⟨r, b⟩ =
      2 ^ Nat.log2 b :: runIter fuel ⟨r - 1, b ^^^ 2 ^ Nat.log2 b⟩ := by
  show (match HotBitsIntoIterator.next ⟨r, b⟩ with
    | none => []
    | some (p, t) => p :: runIter fuel t) = _
  rw [HotBitsIntoIterator.next]
  show (match (if b = 0 then none else
      some ((1 : Nat) <<< (63 - u64LeadingZeros b),
        (⟨r - 1, b ^^^ ((1 : Nat) <<< (63 - u64LeadingZeros b))⟩ :
          HotBitsIntoIterator))) with
    | none => ([] : List Nat)
    | some (p, t) => p :: runIter fuel t) = _
  rw [if_neg hb, hotPosition_eq b hb hlt]

theorem runIter_zero (r fuel : Nat) : runIter fuel ⟨r, 0⟩ = [] := by
  cases fuel with
  | zero => rfl
  | succ m => rfl

theorem runIter_spec : ∀ b, b < 2 ^ 64 → ∀ r fuel, count_set b ≤ fuel →
    (runIter fuel ⟨r, b⟩).length = count_set b ∧
    orBits (runIter fuel ⟨r, b⟩) = b ∧
    (∀ x ∈ runIter fuel ⟨r, b⟩, ∃ k, k < 64 ∧ x = 2 ^ k) ∧
    List.Pairwise (fun x y => y < x) (runIter fuel ⟨r, b⟩) ∧
    (∀ x ∈ runIter fuel ⟨r, b⟩, x ≤ b) := by
  intro b
  induction b using Nat.strong_induction_on with
  | _ b ih =>
    intro hlt r fuel hfuel
    by_cases hb : b = 0
    · subst hb
      rw [runIter_zero]
      refine ⟨by simp [count_set], rfl, by simp, List.Pairwise.nil, by simp⟩
    · have hcpos : 0 < count_set b := count_set_pos b hb hlt
      obtain ⟨fuel', rfl⟩ : ∃ m, fuel = m + 1 := ⟨fuel - 1, by omega⟩
      have hrest_lt : b ^^^ 2 ^ Nat.log2 b < b := clearTop_lt b hb
      have hrest_pow : b ^^^ 2 ^ Nat.log2 b < 2 ^ Nat.log2 b := clearTop_lt_pow b hb
      have hcount : count_set b = count_set (b ^^^ 2 ^ Nat.log2 b) + 1 :=
        count_set_clearTop b hb hlt
      have hrest64 : b ^^^ 2 ^ Nat.log2 b < 2 ^ 64 := lt_trans hrest_lt hlt
      obtain ⟨ihlen, ihor, ihpow, ihpair, ihle⟩ :=
        ih _ hrest_lt hrest64 (r - 1) fuel' (by omega)
      rw [runIter_step r b fuel' hb hlt]
      refine ⟨?_, ?_, ?_, ?_, ?_⟩
      · rw [List.length_cons, ihlen]
        omega
      · rw [orBits_cons, ihor]
        apply Nat.eq_of_testBit_eq
        intro i
        rw [Nat.testBit_or, testBit_clearTop b i hb]
        by_cases hiL : i = Nat.log2 b
        · subst hiL
          rw [if_pos rfl, Nat.testBit_two_pow, decide_eq_true rfl,
            testBit_log2 b hb]
          rfl
        · rw [if_neg hiL, Nat.testBit_two_pow,
            decide_eq_false (fun hc => hiL hc.symm)]
          cases b.testBit i <;> rfl
      · intro x hx
        rcases List.mem_cons.mp hx with rfl | hx
        · exact ⟨Nat.log2 b, (Nat.log2_lt hb).mpr hlt, rfl⟩
        · exact ihpow x hx
      · rw [List.pairwise_cons]
        refine ⟨fun y hy => ?_, ihpair⟩
        exact lt_of_le_of_lt (ihle y hy) hrest_pow
      · intro x hx
        rcases List.mem_cons.mp hx with rfl | hx
        · exact Nat.log2_self_le hb
        · exact le_trans (ihle x hx) (le_of_lt hrest_lt)

end RunIterSpec

/-- C6: for every u64 mask `b`, `hot_bits` yields exactly `count_set b`
elements, emitted in descending order (most-significant set bit first: the
values are single-bit masks, so value order is bit-index order); every
yielded `Position` has exactly one bit set, and the bitwise OR of the raw
values of all yielded positions equals `b`. -/
theorem C6_hot_bits_spec (b : Nat) (hb : b < 2 ^ 64) :
    (hotBitsList b).length = count_set b ∧
    List.Pairwise (fun x y => y < x) (hotBitsList b) ∧
    (∀ x ∈ hotBitsList b, count_set x = 1) ∧
    orBits (hotBitsList b) = b := by
  obtain ⟨h1, h2, h3, h4, _⟩ :=
    runIter_spec b hb (count_set b) 64 (count_set_le_64 b)
  refine ⟨h1, h4, ?_, h2⟩
  intro x hx
  obtain ⟨k, hk, rfl⟩ := h3 x hx
  exact count_set_two_pow k hk

/-- Witness for C6 at `b = 0x8000000000100002` (three set bits). -/
theorem C6_hot_bits_spec_witness :
    (hotBitsList 0x8000000000100002).length = count_set 0x8000000000100002 ∧
    List.Pairwise (fun x y => y < x) (hotBitsList 0x8000000000100002) ∧
    (∀ x ∈ hotBitsList 0x8000000000100002, count_set x = 1) ∧
    orBits (hotBitsList 0x8000000000100002) = 0x8000000000100002 :=
  C6_hot_bits_spec 0x8000000000100002 (by decide)

section IterStateInvariant

theorem next_eq_some (t : HotBitsIntoIterator) (htb : t.bitboard ≠ 0)
    (ht64 : t.bitboard < 2 ^ 64) :
    t.next = some (2 ^ Nat.log2 t.bitboard,
      ⟨t.remaining - 1, t.bitboard ^^^ 2 ^ Nat.log2 t.bitboard⟩) := by
  rw [HotBitsIntoIterator.next, if_neg htb, hotPosition_eq t.bitboard htb ht64]

theorem iterState_invariant (b : Nat) (hb : b < 2 ^ 64) :
    ∀ k s, iterState b k = some s →
      s.bitboard < 2 ^ 64 ∧ s.remaining = count_set s.bitboard := by
  intro k
  induction k with
  | zero =>
    intro s hs
    have : hot_bits b = s := by
      injection hs
    subst this
    exact ⟨hb, rfl⟩
  | succ k ih =>
    intro s hs
    rw [iterState] at hs
    cases hprev : iterState b k with
    | none =>
      rw [hprev] at hs
      cases hs
    | some t =>
      rw [hprev] at hs
      replace hs : Option.map (fun r => r.2) t.next = some s := hs
      obtain ⟨ht64, htinv⟩ := ih t hprev
      by_cases htb : t.bitboard = 0
      · rw [HotBitsIntoIterator.next, if_pos htb] at hs
        cases hs
      · rw [next_eq_some t htb ht64] at hs
        replace hs : some (⟨t.remaining - 1,
            t.bitboard ^^^ 2 ^ Nat.log2 t.bitboard⟩ : HotBitsIntoIterator) = some s := hs
        have hst : (⟨t.remaining - 1,
            t.bitboard ^^^ 2 ^ Nat.log2 t.bitboard⟩ : HotBitsIntoIterator) = s := by
          injection hs
        subst hst
        constructor
        · exact lt_trans (clearTop_lt t.bitboard htb) ht64
        · have := count_set_clearTop t.bitboard htb ht64
          simp only []
          omega

end IterStateInvariant

/-- C10: for every u64 mask `b`, every state reachable while iterating
`hot_bits b` satisfies `remaining = count_set bitboard`; consequently in
`next` the decrement `remaining -= 1` never underflows (`remaining ≥ 1`
whenever the internal bitboard is non-empty), the shift amount
`63 - leading_zeros` never underflows and is at most 63 so the `1 << …`
shift never overflows, and `len` always reports exactly the number of
elements still to be yielded. -/
theorem C10_iterator_invariant (b : Nat) (hb : b < 2 ^ 64) (k : Nat)
    (s : HotBitsIntoIterator) (hs : iterState b k = some s) :
    s.remaining = count_set s.bitboard ∧
    (s.bitboard ≠ 0 → 1 ≤ s.remaining) ∧
    (s.bitboard ≠ 0 →
      u64LeadingZeros s.bitboard ≤ 63 ∧ 63 - u64LeadingZeros s.bitboard ≤ 63) ∧
    s.remaining = (runIter 64 s).length := by
  obtain ⟨h64, hinv⟩ := iterState_invariant b hb k s hs
  refine ⟨hinv, ?_, ?_, ?_⟩
  · intro hne
    have := count_set_pos s.bitboard hne h64
    omega
  · intro hne
    rw [u64LeadingZeros, if_neg hne]
    omega
  · obtain ⟨r, bb⟩ := s
    obtain ⟨hlen, _, _, _, _⟩ := runIter_spec bb h64 r 64 (count_set_le_64 bb)
    rw [hlen]
    exact hinv

/-- Witness for C10 at `b = 5`, `k = 0`: the initial state `hot_bits 5`. -/
theorem C10_iterator_invariant_witness :
    (hot_bits 5).remaining = count_set (hot_bits 5).bitboard ∧
    ((hot_bits 5).bitboard ≠ 0 → 1 ≤ (hot_bits 5).remaining) ∧
    ((hot_bits 5).bitboard ≠ 0 →
      u64LeadingZeros (hot_bits 5).bitboard ≤ 63 ∧
      63 - u64LeadingZeros (hot_bits 5).bitboard ≤ 63) ∧
    (hot_bits 5).remaining = (runIter 64 (hot_bits 5)).length :=
  C10_iterator_invariant 5 (by decide) 0 (hot_bits 5) rfl

end Magpie
